import Mathlib

/-!
Verification of the docx template library (package `docx`): a shallow embedding
of `template.go` and `document.go` into Lean, with theorems settling the
specification claims about placeholder location, replacement, and archive
rewriting.

Conventions of the embedding:
* Go `[]byte` values and the byte contents of Go `string`s are `List Nat`
  (each entry < 256 in practice).
* Go runtime panics (out-of-range slice expressions) are modelled by `Option`:
  a function that can panic returns `none` in exactly the situations in which
  the Go code panics.
* Go's `text/template` engine is an external collaborator (the spec treats it
  as an opaque evaluator); it is modelled as a function from a placeholder's
  template content to an evaluation outcome.
-/

namespace Docx

/-- Go byte strings (`[]byte`, and the raw bytes of a `string`). -/
abbrev Bytes := List Nat

/-- Mirrors struct `Position{Start, End int64}`. All positions produced by the
library are non-negative, so `Nat` is used. -/
structure Position where
  Start : Nat
  End : Nat
deriving Repr, DecidableEq

/-- Mirrors struct `TagPair{OpenTag, CloseTag Position}`. -/
structure TagPair where
  OpenTag : Position
  CloseTag : Position
deriving Repr, DecidableEq

/-- Mirrors struct `Run{ID; Text TagPair; HasText bool}` (fields not used by the
template code are omitted). -/
structure Run where
  ID : Nat
  Text : TagPair
  HasText : Bool
deriving Repr, DecidableEq

/-- Modelled from the spec: `Run.GetText` lives in the run-parser file, which is
not under src/. Per the spec (§4.1, "text-node-open end" / "text-node-close
start" delimit the text) and the call sites in `template.go`, it returns the raw
bytes `documentBytes[r.Text.OpenTag.End : r.Text.CloseTag.Start]`; the Go slice
expression panics (here: `none`) when those bounds are invalid. -/
def Run.GetText (r : Run) (docBytes : Bytes) : Option Bytes :=
  if r.Text.OpenTag.End ≤ r.Text.CloseTag.Start ∧ r.Text.CloseTag.Start ≤ docBytes.length then
    some ((docBytes.drop r.Text.OpenTag.End).take (r.Text.CloseTag.Start - r.Text.OpenTag.End))
  else none

/-- The ordered runs of one document part. -/
abbrev DocumentRuns := List Run

/-- Modelled from the spec: `DocumentRuns.WithText` (run-parser file, not under
src/) keeps, in order, the runs that carry a text node (`HasText`). -/
def DocumentRuns.WithText (runs : DocumentRuns) : DocumentRuns :=
  runs.filter (·.HasText)

/-! ### UTF-8 decoding (Go's `[]rune(string)` conversion)

`findTemplateStarts`/`findTemplateEnds` convert the run text to `[]rune` before
scanning; the positions they return are rune indices.  The decoder below follows
Go's `utf8.DecodeRune`: on any invalid encoding it yields U+FFFD and consumes a
single byte. -/

/-- Is `b` a UTF-8 continuation byte (0x80..0xBF)? -/
def isCont (b : Nat) : Bool := 0x80 ≤ b && b < 0xC0

/-- U+FFFD, Go's `utf8.RuneError`. -/
def runeError : Char := Char.ofNat 0xFFFD

/-- Valid second byte of a 3-byte sequence headed by `b0` (excludes overlong
encodings and surrogates, as Go does). -/
def okSecond3 (b0 b1 : Nat) : Bool :=
  if b0 = 0xE0 then 0xA0 ≤ b1 && b1 < 0xC0
  else if b0 = 0xED then 0x80 ≤ b1 && b1 < 0xA0
  else isCont b1

/-- Valid second byte of a 4-byte sequence headed by `b0` (excludes overlong
encodings and code points above U+10FFFF, as Go does). -/
def okSecond4 (b0 b1 : Nat) : Bool :=
  if b0 = 0xF0 then 0x90 ≤ b1 && b1 < 0xC0
  else if b0 = 0xF4 then 0x80 ≤ b1 && b1 < 0x90
  else isCont b1

/-- One step of Go's `utf8.DecodeRune`: the decoded rune and the number of
bytes consumed (1 for any invalid encoding, like Go). -/
def decodeRune (bs : Bytes) : Char × Nat :=
  match bs with
  | [] => (runeError, 1)
  | b0 :: rest =>
    if b0 < 0x80 then (Char.ofNat b0, 1)
    else if b0 < 0xC2 then (runeError, 1)
    else if b0 < 0xE0 then
      match rest with
      | b1 :: _ =>
        if isCont b1 then (Char.ofNat ((b0 - 0xC0) * 64 + (b1 - 0x80)), 2) else (runeError, 1)
      | [] => (runeError, 1)
    else if b0 < 0xF0 then
      match rest with
      | b1 :: b2 :: _ =>
        if okSecond3 b0 b1 && isCont b2 then
          (Char.ofNat (((b0 - 0xE0) * 64 + (b1 - 0x80)) * 64 + (b2 - 0x80)), 3)
        else (runeError, 1)
      | _ => (runeError, 1)
    else if b0 < 0xF5 then
      match rest with
      | b1 :: b2 :: b3 :: _ =>
        if okSecond4 b0 b1 && isCont b2 && isCont b3 then
          (Char.ofNat ((((b0 - 0xF0) * 64 + (b1 - 0x80)) * 64 + (b2 - 0x80)) * 64 + (b3 - 0x80)), 4)
        else (runeError, 1)
      | _ => (runeError, 1)
    else (runeError, 1)

/-- Fuel-driven loop of the `[]rune(string)` conversion; every step consumes at
least one byte, so fuel equal to the byte length is always enough. -/
def utf8DecodeAux : Nat → Bytes → List Char
  | 0, _ => []
  | _, [] => []
  | fuel + 1, b :: rest => (decodeRune (b :: rest)).1 :: utf8DecodeAux fuel ((b :: rest).drop (decodeRune (b :: rest)).2)

/-- Go's `[]rune(text)` conversion of a byte string. -/
def utf8Decode (bs : Bytes) : List Char := utf8DecodeAux bs.length bs

theorem decodeRune_snd_pos (bs : Bytes) : 1 ≤ (decodeRune bs).2 := by
  rcases bs with _ | ⟨b0, rest⟩
  · simp [decodeRune]
  · unfold decodeRune
    repeat' split <;> try simp

theorem utf8DecodeAux_length_le : ∀ (fuel : Nat) (bs : Bytes), (utf8DecodeAux fuel bs).length ≤ bs.length := by
  intro fuel
  induction fuel with
  | zero => intro bs; simp [utf8DecodeAux]
  | succ n ih =>
    intro bs
    rcases bs with _ | ⟨b, rest⟩
    · simp [utf8DecodeAux]
    · have h1 := decodeRune_snd_pos (b :: rest)
      have h2 := ih ((b :: rest).drop (decodeRune (b :: rest)).2)
      have h3 : ((b :: rest).drop (decodeRune (b :: rest)).2).length = (b :: rest).length - (decodeRune (b :: rest)).2 := List.length_drop _ _
      simp only [utf8DecodeAux, List.length_cons] at *
      omega

/-- The rune count never exceeds the byte count. -/
theorem utf8Decode_length_le (bs : Bytes) : (utf8Decode bs).length ≤ bs.length :=
  utf8DecodeAux_length_le bs.length bs

/-! ### The Placeholder Locator (`template.go`) -/

/-- Left typographic quotation mark U+201C, recognized by `findTemplateStarts`. -/
def leftQuote : Char := Char.ofNat 0x201C

/-- Right typographic quotation mark U+201D, recognized by `findTemplateEnds`. -/
def rightQuote : Char := Char.ofNat 0x201D

/-- `findTemplateStarts`: all rune indices `i` with `runes[i] = runes[i+1] = '\x7b'`
or `runes[i] = runes[i+1] = U+201C` (the loop runs `i` from 0 to `len(runes)-2`
and appends the matching indices in order). -/
def findTemplateStarts (runes : List Char) : List Nat :=
  (List.range (runes.length - 1)).filter fun i =>
    (runes.getD i ' ' = '{' && runes.getD (i + 1) ' ' = '{') ||
    (runes.getD i ' ' = leftQuote && runes.getD (i + 1) ' ' = leftQuote)

/-- `findTemplateEnds`: all rune indices `i` with `runes[i] = runes[i+1] = '\x7d'`
or `runes[i] = runes[i+1] = U+201D`. -/
def findTemplateEnds (runes : List Char) : List Nat :=
  (List.range (runes.length - 1)).filter fun i =>
    (runes.getD i ' ' = '}' && runes.getD (i + 1) ' ' = '}') ||
    (runes.getD i ' ' = rightQuote && runes.getD (i + 1) ' ' = rightQuote)

/-- Effectful map over a list, stopping at the first `none` — the shape of the
Go loops below that build up a slice and propagate the first panic. -/
def optMapM {α β : Type} (f : α → Option β) : List α → Option (List β)
  | [] => some []
  | x :: xs => do
    let y ← f x
    let ys ← optMapM f xs
    pure (y :: ys)

/-- Go slice expression `bs[a:b]` on a byte string: defined iff `a ≤ b ≤ len(bs)`,
panic (`none`) otherwise. -/
def goSlice (bs : Bytes) (a b : Nat) : Option Bytes :=
  if a ≤ b ∧ b ≤ bs.length then some ((bs.drop a).take (b - a)) else none

/-- Mirrors struct `PlaceholderFragment{Position; Run}`. -/
structure PlaceholderFragment where
  Position : Docx.Position
  Run : Docx.Run
deriving Repr, DecidableEq

/-- Mirrors struct `Placeholder{Fragments []*PlaceholderFragment}`. -/
structure Placeholder where
  Fragments : List PlaceholderFragment
deriving Repr, DecidableEq

/-- `Placeholder.StartPos`: `Fragments[0].Run.Text.OpenTag.End + Fragments[0].Position.Start`.
The source indexes `Fragments[0]` unconditionally; every Placeholder the library
builds has exactly one fragment, so the empty case (0 here) is never reached. -/
def Placeholder.StartPos (p : Placeholder) : Nat :=
  match p.Fragments with
  | [] => 0
  | f :: _ => f.Run.Text.OpenTag.End + f.Position.Start

/-- `Placeholder.EndPos`: `Fragments[last].Run.Text.OpenTag.End + Fragments[last].Position.End`. -/
def Placeholder.EndPos (p : Placeholder) : Nat :=
  match p.Fragments.getLast? with
  | none => 0
  | some f => f.Run.Text.OpenTag.End + f.Position.End

/-- Mirrors struct `TemplatePlaceholder{Placeholder; FileName; TemplateContent; Key}`.
`TemplateContent` and `Key` are Go strings obtained by byte slicing; they are
kept as byte strings. -/
structure TemplatePlaceholder where
  Placeholder : Docx.Placeholder
  FileName : String
  TemplateContent : Bytes
  Key : Bytes
deriving Repr, DecidableEq

/-- Loop body of `ParseTemplatePlaceholders` for one matched pair: rune indices
`s` (a start) and `e` (an end).  `templateContent := runText[start : end+2]` and
`key := templateContent[2 : len(templateContent)-2]` are Go BYTE slices of the
run text, although `s` and `e` are RUNE indices — exactly as in the source.  The
recorded fragment `Position` is `{int64(start), int64(end+2)}`.  `none` models
the panic of an out-of-range slice. -/
def buildTemplatePlaceholder (fileName : String) (run : Run) (textBytes : Bytes)
    (s e : Nat) : Option TemplatePlaceholder :=
  match goSlice textBytes s (e + 2) with
  | none => none
  | some templateContent =>
    match goSlice templateContent 2 (templateContent.length - 2) with
    | none => none
    | some key =>
      some
        { Placeholder := { Fragments := [{ Position := { Start := s, End := e + 2 }, Run := run }] }
          FileName := fileName
          TemplateContent := templateContent
          Key := key }

/-- Per-run body of `ParseTemplatePlaceholders`: scan the run text (as runes)
for starts and ends, then pair them positionally — `for i, start := range
templateStarts { if i < len(templateEnds) { end := templateEnds[i]; ... } }` —
which is exactly `zip`: the i-th start with the i-th end, starts beyond the
number of ends skipped. -/
def parseRunText (fileName : String) (run : Run) (textBytes : Bytes) :
    Option (List TemplatePlaceholder) :=
  let runes := utf8Decode textBytes
  optMapM (fun p => buildTemplatePlaceholder fileName run textBytes p.1 p.2)
    ((findTemplateStarts runes).zip (findTemplateEnds runes))

/-- `ParseTemplatePlaceholders(runs, docBytes, fileName)`: for each run with
text, in order, collect the placeholders of that run's text.  The Go function's
`error` result is always nil; `none` here models a panic. -/
def ParseTemplatePlaceholders (runs : DocumentRuns) (docBytes : Bytes) (fileName : String) :
    Option (List TemplatePlaceholder) :=
  runs.WithText.foldlM
    (fun acc run =>
      match run.GetText docBytes with
      | none => none
      | some text =>
        match parseRunText fileName run text with
        | none => none
        | some phs => some (acc ++ phs))
    []

/-! ### The pre-execution missing-field check (`hasMissingFields` / `fieldExists`)

`hasMissingFields` extracts field references with the Go regex
`\x7b\x7b\.([^\x7d]+)\x7d\x7d` (open-brace twice, a dot, one or more non-close-brace
characters captured, close-brace twice).  For this pattern, byte-level matching
coincides with Go's rune-level regex matching: the three literal characters are
ASCII, and a byte differs from 0x7D exactly when the rune it belongs to differs
from the close brace. -/

/-- The bytes of an ASCII string literal. -/
def asciiBytes (s : String) : Bytes := s.data.map Char.toNat

/-- Does the regex match at the current position?  If so, return the capture
(the bytes between the open markers plus dot and the close markers) and the
rest of the input after the whole match.  `0x7B`/`0x7D` are the braces, `0x2E`
the dot.  The capture is greedy; since a shorter capture can never turn a
failing close-marker test into a success (the capture cannot contain `0x7D`),
this deterministic scan is exactly the regex's behaviour. -/
def fieldCapture (rest : Bytes) : Option (Bytes × Bytes) :=
  match rest.takeWhile (· ≠ 0x7D), rest.dropWhile (· ≠ 0x7D) with
  | [], _ => none
  | cap, d1 :: d2 :: tail => if d1 = 0x7D ∧ d2 = 0x7D then some (cap, tail) else none
  | _, _ => none

def fieldMatchAt (bs : Bytes) : Option (Bytes × Bytes) :=
  match bs with
  | b1 :: b2 :: b3 :: rest =>
    if b1 = 0x7B ∧ b2 = 0x7B ∧ b3 = 0x2E then fieldCapture rest else none
  | _ => none

/-- `FindAllStringSubmatch(content, -1)`: leftmost matches, scanning left to
right, continuing after each whole match (non-overlapping).  Fuel equal to the
input length is always enough: each step either consumes a whole match (at
least five bytes) or advances one byte. -/
def findFieldRefsAux : Nat → Bytes → List Bytes
  | 0, _ => []
  | _, [] => []
  | fuel + 1, b :: rest =>
    match fieldMatchAt (b :: rest) with
    | some (cap, tail) => cap :: findFieldRefsAux fuel tail
    | none => findFieldRefsAux fuel rest

/-- All captures of the field-reference regex over a template content. -/
def findFieldRefs (bs : Bytes) : List Bytes := findFieldRefsAux bs.length bs

/-- A `map[string]interface{}` context is modelled by its key set; the template
logic under verification (`fieldExists` on a map) only consults key membership.
Struct contexts go through reflection probing (`checkStructField`), outside the
claims. -/
abbrev CtxKeys := List Bytes

/-- `fieldExists` for a map context: `_, exists := dataMap[fieldName]`. -/
def fieldExists (keys : CtxKeys) (fieldName : Bytes) : Bool := keys.contains fieldName

/-- `hasMissingFields(templateContent)`: true when the data is nil, or when some
regex-extracted field reference is not a key of the map. -/
def hasMissingFields (data : Option CtxKeys) (templateContent : Bytes) : Bool :=
  match data with
  | none => true
  | some keys => (findFieldRefs templateContent).any fun f => !(fieldExists keys f)

/-! ### The Replacement Engine (`processTemplatePlaceholder` and friends) -/

/-- Outcome of pushing one placeholder's content through Go's `text/template`
engine (`tr.tmpl.Parse` followed by `tmpl.Execute`).  The engine is external
code (the spec's opaque evaluator): `ok` is a successful rendering,
`missingFieldErr` an execution error that `isMissingFieldError` classifies as a
missing field/key, `fatalErr` a parse error or any other execution error. -/
inductive EvalResult where
  | ok (rendered : Bytes)
  | missingFieldErr
  | fatalErr
deriving Repr, DecidableEq

/-- The opaque template engine, specialised to the fixed data object. -/
abbrev Evaluator := Bytes → EvalResult

/-- The modifiable files of an open document: Go map `files FileMap`
(`map[string][]byte`). -/
abbrev FileMap := String → Option Bytes

/-- `Document.GetFile`. -/
def GetFile (files : FileMap) (fileName : String) : Option Bytes := files fileName

/-- `Document.SetFile`: `(new file map, error?)`.  When `fileName` is not
registered the method returns an error having mutated nothing. -/
def SetFile (files : FileMap) (fileName : String) (fileBytes : Bytes) : FileMap × Bool :=
  match files fileName with
  | none => (files, true)
  | some _ => (fun n => if n = fileName then some fileBytes else files n, false)

/-- Go `copy(dst[offset:], src)` (with `offset ≤ dst.length`): overwrites
`min (src.length) (dst.length - offset)` bytes at `offset`, length unchanged. -/
def goCopyAt (dst : Bytes) (offset : Nat) (src : Bytes) : Bytes :=
  dst.take offset ++ src.take (dst.length - offset) ++
    dst.drop (offset + min src.length (dst.length - offset))

/-- The byte splice of `replacePlaceholder`:

    newBytes := make([]byte, len(docBytes)-(endPos-startPos)+len(result))
    copy(newBytes, docBytes[:startPos])
    copy(newBytes[startPos:], result)
    copy(newBytes[startPos+len(result):], docBytes[endPos:])

The slice expressions panic (`none`) unless `startPos ≤ len` and `endPos ≤ len`
(under which the remaining Go index expressions are in range, including when
`endPos < startPos`: the `int64` length is then `len + (startPos - endPos) +
len(result)`, which the guarded `Nat` expression below also computes). -/
def spliceBytes (docBytes : Bytes) (startPos endPos : Nat) (result : Bytes) : Option Bytes :=
  if startPos ≤ docBytes.length ∧ endPos ≤ docBytes.length then
    let L := docBytes.length + startPos - endPos + result.length
    some (goCopyAt (goCopyAt (goCopyAt (List.replicate L 0) 0 (docBytes.take startPos))
      startPos result) (startPos + result.length) (docBytes.drop endPos))
  else none

/-- Go `strings.Contains(hay, needle)` on byte strings. -/
def bytesContains (needle : Bytes) : Bytes → Bool
  | [] => needle.isEmpty
  | b :: rest => needle.isPrefixOf (b :: rest) || bytesContains needle rest

/-- Result of one processing step, or of the whole `ExecuteTemplate` run:
`panicked` models a Go runtime panic, `failed` a returned error (the document's
file map at that moment rides along: Go returns the error with the document
left in its current state), `ok` a nil error. -/
inductive StepResult where
  | panicked
  | failed (msg : String) (files : FileMap)
  | ok (files : FileMap)

/-- `replacePlaceholder(placeholder, result)`: read the file, splice the
rendered result over `[StartPos, EndPos)`, write the file back. -/
def replacePlaceholder (files : FileMap) (ph : TemplatePlaceholder) (result : Bytes) :
    StepResult :=
  match GetFile files ph.FileName with
  | none => .failed "file not found" files
  | some docBytes =>
    match spliceBytes docBytes ph.Placeholder.StartPos ph.Placeholder.EndPos result with
    | none => .panicked
    | some newBytes =>
      match SetFile files ph.FileName newBytes with
      | (f, true) => .failed "unregistered file" f
      | (f, false) => .ok f

/-- `processTemplatePlaceholder`: skip (leave the document untouched) when the
pre-execution check reports a missing field, when execution fails with a
missing-field-class error, or when the rendering contains `<no value>`;
otherwise substitute.  A parse error or an unclassified execution error is a
returned error. -/
def processTemplatePlaceholder (E : Evaluator) (data : Option CtxKeys)
    (files : FileMap) (ph : TemplatePlaceholder) : StepResult :=
  if hasMissingFields data ph.TemplateContent then .ok files
  else
    match E ph.TemplateContent with
    | .fatalErr => .failed "failed to parse or execute template" files
    | .missingFieldErr => .ok files
    | .ok result =>
      if bytesContains (asciiBytes "<no value>") result then .ok files
      else replacePlaceholder files ph result

/-- The processing loop of `ExecuteTemplate` over an already-ordered list
(the source iterates the extracted list from the last index down to 0, i.e.
processes `placeholders.reverse` front to back); the first error or panic
aborts. -/
def processAll (E : Evaluator) (data : Option CtxKeys) :
    List TemplatePlaceholder → FileMap → StepResult
  | [], files => .ok files
  | ph :: rest, files =>
    match processTemplatePlaceholder E data files ph with
    | .ok f => processAll E data rest f
    | r => r

/-- The template-relevant state of an open `Document`: for each file name the
current bytes and the parsed runs (`d.files` plus `d.runParsers`), in the
iteration order the Go map range happens to produce. -/
structure TDoc where
  parts : List (String × Bytes × DocumentRuns)

/-- The document's file map derived from its parts. -/
def TDoc.fileMap (d : TDoc) : FileMap :=
  fun n => (d.parts.find? fun p => p.1 = n).map fun p => p.2.1

/-- `extractTemplatePlaceholders`: concatenate the placeholders of every file. -/
def extractTemplatePlaceholders (d : TDoc) : Option (List TemplatePlaceholder) :=
  d.parts.foldlM
    (fun acc p =>
      match ParseTemplatePlaceholders p.2.2 p.2.1 p.1 with
      | none => none
      | some phs => some (acc ++ phs))
    []

/-- `ExecuteTemplate`: error out when no data was set; otherwise extract all
placeholders and process them in reverse extraction order. -/
def ExecuteTemplate (E : Evaluator) (data : Option CtxKeys) (d : TDoc) : StepResult :=
  match data with
  | none => .failed "template data not set, call SetData() first" d.fileMap
  | some _ =>
    match extractTemplatePlaceholders d with
    | none => .panicked
    | some phs => processAll E data phs.reverse d.fileMap

/-! ### The Document Store (`document.go`) -/

/-- One entry of the docx zip archive. -/
structure ZipEntry where
  name : String
  content : Bytes
deriving Repr, DecidableEq

/-- `word/document.xml`. -/
def DocumentXml : String := "word/document.xml"

/-- Tail of the Go regex `word/header[0-9]*.xml` after the literal
`word/header`: zero or more digits, then any character other than a newline
(the unescaped dot), then the literal `xml`.  Written with the backtracking the
regex engine performs. -/
def headerTailMatch : List Char → Bool
  | [] => false
  | c :: rest => (c ≠ '\n' && "xml".data.isPrefixOf rest) || (c.isDigit && headerTailMatch rest)

/-- Does `p` match at some position of `cs` (unanchored search)? -/
def matchSomewhere (p : List Char → Bool) : List Char → Bool
  | [] => p []
  | c :: rest => p (c :: rest) || matchSomewhere p rest

/-- `HeaderPathRegex.MatchString(name)`: the unanchored regex
`word/header[0-9]*.xml`. -/
def HeaderPathRegex (name : String) : Bool :=
  matchSomewhere (fun cs => "word/header".data.isPrefixOf cs && headerTailMatch (cs.drop 11))
    name.data

/-- `FooterPathRegex.MatchString(name)`: the unanchored regex
`word/footer[0-9]*.xml`. -/
def FooterPathRegex (name : String) : Bool :=
  matchSomewhere (fun cs => "word/footer".data.isPrefixOf cs && headerTailMatch (cs.drop 11))
    name.data

/-- `MediaPathRegex.MatchString(name)`: the unanchored regex `word/media/*`
whose star applies to the slash, so it matches exactly when the name contains
`word/media`. -/
def MediaPathRegex (name : String) : Bool :=
  matchSomewhere (fun cs => "word/media".data.isPrefixOf cs) name.data

/-- The file-tracking state `parseArchive` builds. -/
structure DocFiles where
  files : FileMap
  headerFiles : List String
  footerFiles : List String
  mediaFiles : List String

/-- The empty file map. -/
def emptyFiles : FileMap := fun _ => none

/-- Go map assignment `files[n] = bs`. -/
def fmInsert (m : FileMap) (n : String) (bs : Bytes) : FileMap :=
  fun k => if k = n then some bs else m k

/-- Loop body of `parseArchive`: four independent pattern tests; a matching
entry is read into the file map and (for header/footer/media) its name appended
to the corresponding list. -/
def parseArchiveStep (acc : DocFiles) (e : ZipEntry) : DocFiles :=
  let acc1 := if e.name = DocumentXml then
    { acc with files := fmInsert acc.files DocumentXml e.content } else acc
  let acc2 := if HeaderPathRegex e.name then
    { acc1 with files := fmInsert acc1.files e.name e.content,
                headerFiles := acc1.headerFiles ++ [e.name] } else acc1
  let acc3 := if FooterPathRegex e.name then
    { acc2 with files := fmInsert acc2.files e.name e.content,
                footerFiles := acc2.footerFiles ++ [e.name] } else acc2
  if MediaPathRegex e.name then
    { acc3 with files := fmInsert acc3.files e.name e.content,
                mediaFiles := acc3.mediaFiles ++ [e.name] } else acc3

/-- `Document.parseArchive`: fold over the archive's entries in order. -/
def parseArchive (entries : List ZipEntry) : DocFiles :=
  entries.foldl parseArchiveStep ⟨emptyFiles, [], [], []⟩

/-- `Document.isModifiedFile`: membership of the searched name in
`headerFiles ++ footerFiles ++ mediaFiles ++ [DocumentXml]`. -/
def isModifiedFile (d : DocFiles) (searchFileName : String) : Bool :=
  (d.headerFiles ++ d.footerFiles ++ d.mediaFiles ++ [DocumentXml]).contains searchFileName

/-- `Document.Write`: iterate the original archive's entries in order; an entry
whose name `isModifiedFile` reports is written from the in-memory file map
(`FileMap.Write`, which errors — `none` — when the map lacks the name), every
other entry is copied from the original archive unmodified. -/
def writeDocument (entries : List ZipEntry) (d : DocFiles) : Option (List ZipEntry) :=
  optMapM
    (fun e =>
      if isModifiedFile d e.name then (d.files e.name).map fun bs => ZipEntry.mk e.name bs
      else some e)
    entries

/-- Projection used to state facts about a successful run: the bytes the
resulting document holds for `n`, or `none` when the run did not succeed. -/
def okFileAt (r : StepResult) (n : String) : Option Bytes :=
  match r with
  | .ok f => f n
  | _ => none

/-! ### General-purpose lemmas about `optMapM` -/

theorem optMapM_eq_some_forall₂ {α β : Type} (f : α → Option β) :
    ∀ {l : List α} {ys : List β}, optMapM f l = some ys →
      List.Forall₂ (fun x y => f x = some y) l ys := by
  intro l
  induction l with
  | nil => intro ys h; simp [optMapM] at h; simp [← h]
  | cons x xs ih =>
    intro ys h
    simp only [optMapM] at h
    rcases hx : f x with _ | y
    · rw [hx] at h; simp at h
    · rw [hx] at h
      rcases hxs : optMapM f xs with _ | ys'
      · rw [hxs] at h; simp at h
      · rw [hxs] at h
        simp at h
        subst h
        exact List.Forall₂.cons hx (ih hxs)

theorem optMapM_isSome_of_forall {α β : Type} (f : α → Option β) :
    ∀ {l : List α}, (∀ x ∈ l, (f x).isSome) →
      ∃ ys, optMapM f l = some ys ∧ List.Forall₂ (fun x y => f x = some y) l ys := by
  intro l
  induction l with
  | nil => intro _; exact ⟨[], by simp [optMapM], List.Forall₂.nil⟩
  | cons x xs ih =>
    intro h
    rcases Option.isSome_iff_exists.mp (h x (by simp)) with ⟨y, hy⟩
    rcases ih (fun z hz => h z (by simp [hz])) with ⟨ys, hys, hf⟩
    exact ⟨y :: ys, by simp [optMapM, hy, hys], List.Forall₂.cons hy hf⟩

theorem forall₂_mem_right {α β : Type} {R : α → β → Prop} :
    ∀ {l : List α} {ys : List β}, List.Forall₂ R l ys → ∀ y ∈ ys, ∃ x ∈ l, R x y := by
  intro l ys h
  induction h with
  | nil => simp
  | cons hR _ ih =>
    intro y hy
    rcases List.mem_cons.mp hy with h1 | h2
    · exact ⟨_, by simp, h1 ▸ hR⟩
    · rcases ih y h2 with ⟨x, hx, hxy⟩
      exact ⟨x, by simp [hx], hxy⟩

theorem forall₂_pairwise_transfer {α β : Type} {R : α → β → Prop}
    {P : α → α → Prop} {Q : β → β → Prop}
    (hc : ∀ a b a' b', R a b → R a' b' → P a a' → Q b b') :
    ∀ {l : List α} {ys : List β}, List.Forall₂ R l ys → l.Pairwise P → ys.Pairwise Q := by
  intro l ys h
  induction h with
  | nil => intro _; exact List.Pairwise.nil
  | @cons a b l' ys' hR hf ih =>
    intro hp
    rcases List.pairwise_cons.mp hp with ⟨hhead, htail⟩
    refine List.pairwise_cons.mpr ⟨?_, ih htail⟩
    intro y hy
    rcases forall₂_mem_right hf y hy with ⟨x, hx, hxy⟩
    exact hc a b x y hR hxy (hhead x hx)

/-! ### Claim C1 — run fragmentation

A document part holding the token (open marker)`.na` in one run's text and
`me`(close marker) in the next run's text: written out,
`<w:r><w:t>` (5+5 bytes), the text `\x7b\x7b.na` at bytes 10..14,
`</w:t></w:r><w:r><w:t>` up to byte 37, the text `me\x7d\x7d` at bytes 37..40,
and `</w:t></w:r>`. -/

/-- The part bytes of the fragmented-token example. -/
def c1Bytes : Bytes :=
  asciiBytes "<w:r><w:t>\x7b\x7b.na</w:t></w:r><w:r><w:t>me\x7d\x7d</w:t></w:r>"

/-- First run: text node holds `\x7b\x7b.na`. -/
def c1Run1 : Run := { ID := 1, Text := { OpenTag := ⟨5, 10⟩, CloseTag := ⟨15, 21⟩ }, HasText := true }

/-- Second run: text node holds `me\x7d\x7d`. -/
def c1Run2 : Run := { ID := 2, Text := { OpenTag := ⟨32, 37⟩, CloseTag := ⟨41, 47⟩ }, HasText := true }

/-- **C1.** For a placeholder token whose marker characters are split across two
adjacent text-bearing runs (run 1 text `\x7b\x7b.na`, run 2 text `me\x7d\x7d`,
no intervening run), the Placeholder Locator `ParseTemplatePlaceholders` finds
NO placeholder at all — it scans each run's text in isolation, so neither run
contains both an open and a close marker.  The claim (and the spec's
fragmentation property, promised by the library's own documentation) requires
exactly one Placeholder whose fragments concatenate to the full token; the code
returns zero. -/
theorem c1_fragmented_token_yields_no_placeholder :
    ParseTemplatePlaceholders [c1Run1, c1Run2] c1Bytes DocumentXml = some [] ∧
      (c1Run1.GetText c1Bytes = some (asciiBytes "\x7b\x7b.na") ∧
       c1Run2.GetText c1Bytes = some (asciiBytes "me\x7d\x7d")) := by
  constructor
  · decide
  · constructor <;> decide

/-! ### Claim C8 — typographic quotation marks as markers

One run whose text is the 13 UTF-8 bytes of (U+201C U+201C) `n`
(U+201D U+201D).  The locator recognizes the doubled quotes (rune positions 0
and 3) but slices the run text with those RUNE indices as BYTE offsets. -/

/-- UTF-8 bytes of the five-rune text: two left typographic quotes, `n`, two
right typographic quotes. -/
def c8Bytes : Bytes := [0xE2, 0x80, 0x9C, 0xE2, 0x80, 0x9C, 0x6E, 0xE2, 0x80, 0x9D, 0xE2, 0x80, 0x9D]

/-- The run owning that text (tag positions as they would be with a
`<w:t>`-prefix of 5 bytes and the text spanning bytes 5..18 of the part; only
`OpenTag.End` matters to the recorded absolute positions). -/
def c8Run : Run := { ID := 1, Text := { OpenTag := ⟨0, 5⟩, CloseTag := ⟨18, 24⟩ }, HasText := true }

/-- **C8.** A token delimited by doubled typographic quotation marks is matched
by the locator (one placeholder, open rune 0 paired with close rune 3), BUT the
recorded span and extracted content do not delimit the token in the raw bytes:
the fragment `Position` is `⟨0, 5⟩` (rune indices) while the token occupies
bytes 0..13, and the extracted `TemplateContent` is the first five bytes
`[0xE2,0x80,0x9C,0xE2,0x80]` — one and two-thirds quote characters — rather
than the 13-byte token.  The rune indices produced by `findTemplateStarts` /
`findTemplateEnds` are used as byte offsets, so the defensive Unicode extension
records wrong spans whenever it fires. -/
theorem c8_unicode_quote_span_mismatch :
    parseRunText "f" c8Run c8Bytes =
      some [{ Placeholder := { Fragments := [{ Position := { Start := 0, End := 5 }, Run := c8Run }] }
              FileName := "f"
              TemplateContent := [0xE2, 0x80, 0x9C, 0xE2, 0x80]
              Key := [0x9C] }] ∧
    ([0xE2, 0x80, 0x9C, 0xE2, 0x80] : Bytes) ≠ c8Bytes := by
  constructor
  · decide
  · decide

/-! ### Claim C3 — behaviour when no context was ever set

`ExecuteTemplate` begins with `if tr.data == nil { return fmt.Errorf("template
data not set, call SetData() first") }`: an absent context is surfaced to the
caller as an error (before any placeholder is extracted or touched), contrary
to the claim that it is "never surfaced to the caller as an error". -/

/-- A part holding one expression placeholder (text `\x7b\x7b.name\x7d\x7d`). -/
def c3Bytes : Bytes := asciiBytes "<w:t>\x7b\x7b.name\x7d\x7d</w:t>"

/-- The run owning that text. -/
def c3Run : Run := { ID := 1, Text := { OpenTag := ⟨0, 5⟩, CloseTag := ⟨14, 20⟩ }, HasText := true }

/-- The document with that single part. -/
def c3Doc : TDoc := ⟨[(DocumentXml, c3Bytes, [c3Run])]⟩

/-- An arbitrary concrete evaluator (never consulted on this path). -/
def c3Eval : Evaluator := fun _ => .fatalErr

/-- **C3 counterexample.** With the context absent entirely (data never set),
`ExecuteTemplate` on a document that does contain a placeholder returns the
error `template data not set, call SetData() first` to the caller — the
condition IS surfaced as an error, refuting "this condition is never surfaced
to the caller as an error".  (The placeholder is present: the extraction count
is 1.) -/
theorem c3_nil_data_surfaces_error :
    ExecuteTemplate c3Eval none c3Doc =
      .failed "template data not set, call SetData() first" c3Doc.fileMap ∧
    (extractTemplatePlaceholders c3Doc).map List.length = some 1 := by
  exact ⟨rfl, by decide⟩

/-- **C3 amended.** When the context is absent entirely (nil data),
`ExecuteTemplate` returns the error "template data not set, call SetData()
first" immediately, for every document and every evaluator, with every part's
bytes left completely untouched (the document's file map rides along
unchanged); no placeholder is processed at all. -/
theorem c3_nil_data_error_leaves_files_untouched (E : Evaluator) (d : TDoc) :
    ExecuteTemplate E none d =
      .failed "template data not set, call SetData() first" d.fileMap := rfl

/-! ### Claim C4 — marker pairing and unmatched markers -/

/-- The run text `\x7d\x7dx\x7b\x7ba\x7d\x7d`: a close marker at position 0,
an open marker at position 3, a close marker at position 6. -/
def c4Bytes : Bytes := asciiBytes "\x7d\x7dx\x7b\x7ba\x7d\x7d"

/-- A run owning that text (tag positions irrelevant to the pairing logic). -/
def c4Run : Run := { ID := 1, Text := { OpenTag := ⟨0, 0⟩, CloseTag := ⟨0, 8⟩ }, HasText := true }

/-- **C4 counterexample.** In the text `\x7d\x7dx\x7b\x7ba\x7d\x7d` the open
marker at position 3 has a close marker at position 6 following it; the claim
says it pairs with that nearest following close marker (yielding the token at
positions 3..8) and that the locator never errors.  The code instead pairs the
open marker with the FIRST close marker found in the text — position 0, which
precedes it — and the slice expression `runText[3:2]` panics: the locator
aborts (modelled `none`) instead of producing the placeholder. -/
theorem c4_close_before_open_panics :
    parseRunText "f" c4Run c4Bytes = none ∧
    findTemplateStarts (utf8Decode c4Bytes) = [3] ∧
    findTemplateEnds (utf8Decode c4Bytes) = [0, 6] := by
  refine ⟨by decide, by decide, by decide⟩

/-! ### Claim C4 amended — positional pairing of markers -/

/-- Whatever `buildTemplatePlaceholder` succeeds with has the single recorded
fragment `⟨⟨s, e+2⟩, run⟩` and the given file name. -/
theorem buildTemplatePlaceholder_inv {fileName : String} {run : Run} {textBytes : Bytes}
    {s e : Nat} {ph : TemplatePlaceholder}
    (h : buildTemplatePlaceholder fileName run textBytes s e = some ph) :
    ph.Placeholder = { Fragments := [{ Position := { Start := s, End := e + 2 }, Run := run }] } ∧
    ph.FileName = fileName := by
  unfold buildTemplatePlaceholder at h
  split at h
  · cases h
  · split at h
    · cases h
    · cases h
      exact ⟨rfl, rfl⟩

/-- `buildTemplatePlaceholder` succeeds whenever the pair is well-ordered
(`s + 2 ≤ e`) and the slice stays inside the run text. -/
theorem buildTemplatePlaceholder_isSome {fileName : String} {run : Run} {textBytes : Bytes}
    {s e : Nat} (hse : s + 2 ≤ e) (hel : e + 2 ≤ textBytes.length) :
    (buildTemplatePlaceholder fileName run textBytes s e).isSome := by
  have h1 : goSlice textBytes s (e + 2) =
      some ((textBytes.drop s).take (e + 2 - s)) := by
    unfold goSlice
    rw [if_pos ⟨by omega, hel⟩]
  have hclen : ((textBytes.drop s).take (e + 2 - s)).length = e + 2 - s := by
    rw [List.length_take, List.length_drop]
    omega
  have h2 : goSlice ((textBytes.drop s).take (e + 2 - s)) 2
      (((textBytes.drop s).take (e + 2 - s)).length - 2) =
      some ((((textBytes.drop s).take (e + 2 - s)).drop 2).take
        (((textBytes.drop s).take (e + 2 - s)).length - 2 - 2)) := by
    unfold goSlice
    rw [if_pos ⟨by omega, by omega⟩]
  unfold buildTemplatePlaceholder
  simp only [h1, h2]
  rfl

/-- A position in `findTemplateStarts` is in range and carries an open-marker
character at it and at its successor. -/
theorem mem_findTemplateStarts {runes : List Char} {s : Nat}
    (h : s ∈ findTemplateStarts runes) :
    s + 1 < runes.length ∧
    (runes.getD s ' ' = '{' ∨ runes.getD s ' ' = leftQuote) ∧
    (runes.getD (s + 1) ' ' = '{' ∨ runes.getD (s + 1) ' ' = leftQuote) := by
  rcases List.mem_filter.mp h with ⟨hr, hcond⟩
  have hlt := List.mem_range.mp hr
  have hcases : (runes.getD s ' ' = '{' ∧ runes.getD (s + 1) ' ' = '{') ∨
      (runes.getD s ' ' = leftQuote ∧ runes.getD (s + 1) ' ' = leftQuote) := by
    rcases Bool.or_eq_true_iff.mp hcond with hb | hb <;>
      rcases Bool.and_eq_true_iff.mp hb with ⟨h1, h2⟩ <;>
      simp only [decide_eq_true_eq] at h1 h2
    · exact Or.inl ⟨h1, h2⟩
    · exact Or.inr ⟨h1, h2⟩
  refine ⟨by omega, ?_, ?_⟩
  · rcases hcases with ⟨h1, _⟩ | ⟨h1, _⟩
    · exact Or.inl h1
    · exact Or.inr h1
  · rcases hcases with ⟨_, h2⟩ | ⟨_, h2⟩
    · exact Or.inl h2
    · exact Or.inr h2

/-- A position in `findTemplateEnds` is in range and carries a close-marker
character at it and at its successor. -/
theorem mem_findTemplateEnds {runes : List Char} {e : Nat}
    (h : e ∈ findTemplateEnds runes) :
    e + 1 < runes.length ∧
    (runes.getD e ' ' = '}' ∨ runes.getD e ' ' = rightQuote) ∧
    (runes.getD (e + 1) ' ' = '}' ∨ runes.getD (e + 1) ' ' = rightQuote) := by
  rcases List.mem_filter.mp h with ⟨hr, hcond⟩
  have hlt := List.mem_range.mp hr
  have hcases : (runes.getD e ' ' = '}' ∧ runes.getD (e + 1) ' ' = '}') ∨
      (runes.getD e ' ' = rightQuote ∧ runes.getD (e + 1) ' ' = rightQuote) := by
    rcases Bool.or_eq_true_iff.mp hcond with hb | hb <;>
      rcases Bool.and_eq_true_iff.mp hb with ⟨h1, h2⟩ <;>
      simp only [decide_eq_true_eq] at h1 h2
    · exact Or.inl ⟨h1, h2⟩
    · exact Or.inr ⟨h1, h2⟩
  refine ⟨by omega, ?_, ?_⟩
  · rcases hcases with ⟨h1, _⟩ | ⟨h1, _⟩
    · exact Or.inl h1
    · exact Or.inr h1
  · rcases hcases with ⟨_, h2⟩ | ⟨_, h2⟩
    · exact Or.inl h2
    · exact Or.inr h2

/-- An open-marker position and a close-marker position can never coincide or
be adjacent: if the close is at or after the open, it is at least two runes
later (the close-marker characters differ from the open-marker characters). -/
theorem marks_separated {runes : List Char} {s e : Nat}
    (hs : s ∈ findTemplateStarts runes) (he : e ∈ findTemplateEnds runes)
    (hle : s ≤ e) : s + 2 ≤ e := by
  rcases mem_findTemplateStarts hs with ⟨_, hs0, hs1⟩
  rcases mem_findTemplateEnds he with ⟨_, he0, _⟩
  rcases Nat.lt_or_ge e (s + 2) with hlt | hge
  · have hor : e = s ∨ e = s + 1 := by omega
    rcases hor with rfl | rfl
    · rcases hs0 with h | h <;> rcases he0 with h' | h' <;> rw [h] at h' <;>
        simp [leftQuote, rightQuote] at h'
    · rcases hs1 with h | h <;> rcases he0 with h' | h' <;> rw [h] at h' <;>
        simp [leftQuote, rightQuote] at h'
  · exact hge

/-- **C4 amended.** The locator pairs markers positionally: the i-th open
marker found in the run text is paired with the i-th close marker (not with
the nearest following unmatched one).  When every close in a pair sits at or
after its open, the locator succeeds with exactly one placeholder per pair,
recording the rune span `[start, end+2)`, and open markers beyond the number
of close markers (in particular an open with no close anywhere after it when
the counts match up) yield zero placeholders and no error.  When some paired
close precedes its open the locator panics instead (see the counterexample). -/
theorem c4_positional_pairing (fileName : String) (run : Run) (textBytes : Bytes)
    (h : ∀ p ∈ (findTemplateStarts (utf8Decode textBytes)).zip
      (findTemplateEnds (utf8Decode textBytes)), p.1 ≤ p.2) :
    ∃ phs, parseRunText fileName run textBytes = some phs ∧
      phs.length = min (findTemplateStarts (utf8Decode textBytes)).length
        (findTemplateEnds (utf8Decode textBytes)).length ∧
      List.Forall₂
        (fun p ph =>
          ph.Placeholder =
            { Fragments := [{ Position := { Start := p.1, End := p.2 + 2 }, Run := run }] } ∧
          ph.FileName = fileName)
        ((findTemplateStarts (utf8Decode textBytes)).zip
          (findTemplateEnds (utf8Decode textBytes))) phs := by
  have hsome : ∀ p ∈ (findTemplateStarts (utf8Decode textBytes)).zip
      (findTemplateEnds (utf8Decode textBytes)),
      (buildTemplatePlaceholder fileName run textBytes p.1 p.2).isSome := by
    intro p hp
    rcases List.of_mem_zip hp with ⟨hs, he⟩
    have hsep := marks_separated hs he (h p hp)
    have hrange := (mem_findTemplateEnds he).1
    have hlen := utf8Decode_length_le textBytes
    exact buildTemplatePlaceholder_isSome hsep (by omega)
  rcases optMapM_isSome_of_forall _ hsome with ⟨phs, hmap, hf⟩
  refine ⟨phs, hmap, ?_, ?_⟩
  · rw [← hf.length_eq, List.length_zip]
  · exact hf.imp fun p ph hb => buildTemplatePlaceholder_inv hb

/-- The run text of the C4 witness: a single well-formed token. -/
def c4wBytes : Bytes := asciiBytes "\x7b\x7b.a\x7d\x7d"

/-- The run owning that text. -/
def c4wRun : Run := { ID := 1, Text := { OpenTag := ⟨0, 5⟩, CloseTag := ⟨11, 17⟩ }, HasText := true }

/-- Witness for the amended C4 at a concrete run text with one token. -/
theorem c4_positional_pairing_witness :
    ∃ phs, parseRunText "w" c4wRun c4wBytes = some phs ∧
      phs.length = min (findTemplateStarts (utf8Decode c4wBytes)).length
        (findTemplateEnds (utf8Decode c4wBytes)).length ∧
      List.Forall₂
        (fun p ph =>
          ph.Placeholder =
            { Fragments := [{ Position := { Start := p.1, End := p.2 + 2 }, Run := c4wRun }] } ∧
          ph.FileName = "w")
        ((findTemplateStarts (utf8Decode c4wBytes)).zip
          (findTemplateEnds (utf8Decode c4wBytes))) phs :=
  c4_positional_pairing "w" c4wRun c4wBytes (by decide)

/-! ### Claim C2 — context containing none of the referenced keys -/

/-- A part holding the constant placeholder `\x7b\x7b\x22hi\x22\x7d\x7d`
(a Go template string literal, rendering to `hi` under every context). -/
def c2Bytes : Bytes := asciiBytes "<w:t>\x7b\x7b\x22hi\x22\x7d\x7d</w:t>"

/-- The run owning that text. -/
def c2Run : Run := { ID := 1, Text := { OpenTag := ⟨0, 5⟩, CloseTag := ⟨13, 19⟩ }, HasText := true }

/-- The document with that single part. -/
def c2Doc : TDoc := ⟨[(DocumentXml, c2Bytes, [c2Run])]⟩

/-- The template engine's behaviour on this document's only placeholder:
Go's text/template renders the constant expression
`\x7b\x7b\x22hi\x22\x7d\x7d` to `hi` whatever the data is (no field access is
evaluated). -/
def c2Eval : Evaluator := fun c =>
  if c = asciiBytes "\x7b\x7b\x22hi\x22\x7d\x7d" then .ok (asciiBytes "hi") else .fatalErr

/-- **C2 counterexample.** The placeholder references no keys, so the empty map
context trivially "contains none of the keys referenced by any placeholder";
the claim then requires every part to stay byte-identical.  But
`hasMissingFields` extracts no field references from the constant placeholder,
so it is executed and substituted: the part's bytes change from
`<w:t>\x7b\x7b\x22hi\x22\x7d\x7d</w:t>` to `<w:t>hi</w:t>`. -/
theorem c2_constant_placeholder_substituted :
    okFileAt (ExecuteTemplate c2Eval (some []) c2Doc) DocumentXml =
      some (asciiBytes "<w:t>hi</w:t>") ∧
    c2Doc.fileMap DocumentXml = some c2Bytes ∧
    asciiBytes "<w:t>hi</w:t>" ≠ c2Bytes := by
  refine ⟨by decide, by decide, by decide⟩

/-! ### Claim C7 — untouched archive entries are copied verbatim -/

/-- The mutable-set membership test by name pattern: the main body, the
header/footer patterns, and the media prefix. -/
def mutableName (n : String) : Bool :=
  (n == DocumentXml) || HeaderPathRegex n || FooterPathRegex n || MediaPathRegex n

theorem mutableName_eq_true_iff (n : String) :
    mutableName n = true ↔
      (n = DocumentXml ∨ HeaderPathRegex n = true ∨ FooterPathRegex n = true ∨
        MediaPathRegex n = true) := by
  unfold mutableName
  simp only [Bool.or_eq_true, beq_iff_eq]
  tauto

theorem parseArchiveStep_lists (acc : DocFiles) (e : ZipEntry) :
    (parseArchiveStep acc e).headerFiles =
      acc.headerFiles ++ (if HeaderPathRegex e.name then [e.name] else []) ∧
    (parseArchiveStep acc e).footerFiles =
      acc.footerFiles ++ (if FooterPathRegex e.name then [e.name] else []) ∧
    (parseArchiveStep acc e).mediaFiles =
      acc.mediaFiles ++ (if MediaPathRegex e.name then [e.name] else []) := by
  unfold parseArchiveStep
  split_ifs <;> simp_all

/-- The name lists `parseArchive` builds are exactly the pattern-filtered entry
names, in entry order. -/
theorem parseArchive_lists :
    ∀ (es : List ZipEntry) (acc : DocFiles),
      (es.foldl parseArchiveStep acc).headerFiles =
        acc.headerFiles ++ (es.map (·.name)).filter HeaderPathRegex ∧
      (es.foldl parseArchiveStep acc).footerFiles =
        acc.footerFiles ++ (es.map (·.name)).filter FooterPathRegex ∧
      (es.foldl parseArchiveStep acc).mediaFiles =
        acc.mediaFiles ++ (es.map (·.name)).filter MediaPathRegex := by
  intro es
  induction es with
  | nil => intro acc; simp
  | cons e es' ih =>
    intro acc
    rw [List.foldl_cons]
    have hstep := parseArchiveStep_lists acc e
    have hih := ih (parseArchiveStep acc e)
    refine ⟨?_, ?_, ?_⟩
    · rw [hih.1, hstep.1, List.map_cons, List.filter_cons]
      split_ifs <;> simp
    · rw [hih.2.1, hstep.2.1, List.map_cons, List.filter_cons]
      split_ifs <;> simp
    · rw [hih.2.2, hstep.2.2, List.map_cons, List.filter_cons]
      split_ifs <;> simp

/-- `isModifiedFile` on a parse-built document (whatever the current file map
is): true exactly for the main body name and for entry names matching the
header/footer/media patterns. -/
theorem isModifiedFile_iff (entries : List ZipEntry) (fm : FileMap) (n : String) :
    isModifiedFile { parseArchive entries with files := fm } n = true ↔
      (n = DocumentXml ∨ (n ∈ entries.map (·.name) ∧
        (HeaderPathRegex n = true ∨ FooterPathRegex n = true ∨ MediaPathRegex n = true))) := by
  obtain ⟨h1, h2, h3⟩ := parseArchive_lists entries ⟨emptyFiles, [], [], []⟩
  unfold isModifiedFile
  show (_ : List String).elem n = true ↔ _
  rw [List.elem_eq_mem, decide_eq_true_eq]
  show n ∈ (parseArchive entries).headerFiles ++ (parseArchive entries).footerFiles ++
    (parseArchive entries).mediaFiles ++ [DocumentXml] ↔ _
  rw [show (parseArchive entries).headerFiles = (entries.foldl parseArchiveStep
    ⟨emptyFiles, [], [], []⟩).headerFiles from rfl, h1]
  rw [show (parseArchive entries).footerFiles = (entries.foldl parseArchiveStep
    ⟨emptyFiles, [], [], []⟩).footerFiles from rfl, h2]
  rw [show (parseArchive entries).mediaFiles = (entries.foldl parseArchiveStep
    ⟨emptyFiles, [], [], []⟩).mediaFiles from rfl, h3]
  simp only [List.nil_append, List.mem_append, List.mem_filter, List.mem_singleton]
  constructor
  · rintro (((⟨hm, hp⟩ | ⟨hm, hp⟩) | ⟨hm, hp⟩) | hd)
    · exact Or.inr ⟨hm, Or.inl hp⟩
    · exact Or.inr ⟨hm, Or.inr (Or.inl hp)⟩
    · exact Or.inr ⟨hm, Or.inr (Or.inr hp)⟩
    · exact Or.inl hd
  · rintro (hd | ⟨hm, hp | hp | hp⟩)
    · exact Or.inr hd
    · exact Or.inl (Or.inl (Or.inl ⟨hm, hp⟩))
    · exact Or.inl (Or.inl (Or.inr ⟨hm, hp⟩))
    · exact Or.inl (Or.inr ⟨hm, hp⟩)

/-- **C7.** Writing the final archive iterates the original entries in their
original order (the output has the same length and the i-th output entry keeps
the i-th input entry's name); every entry whose name is NOT in the mutable set
(main body, header*, footer*, media patterns) is byte-identical to the input
entry; every entry whose name IS in the mutable set is written from the
in-memory file map (the possibly replaced bytes). -/
theorem c7_untouched_entries_identical (entries : List ZipEntry) (fm : FileMap)
    (out : List ZipEntry)
    (hw : writeDocument entries { parseArchive entries with files := fm } = some out) :
    out.length = entries.length ∧
    ∀ (i : Nat) (h1 : i < entries.length) (h2 : i < out.length),
      (out.get ⟨i, h2⟩).name = (entries.get ⟨i, h1⟩).name ∧
      (mutableName (entries.get ⟨i, h1⟩).name = false →
        (out.get ⟨i, h2⟩).content = (entries.get ⟨i, h1⟩).content) ∧
      (mutableName (entries.get ⟨i, h1⟩).name = true →
        some (out.get ⟨i, h2⟩).content = fm (entries.get ⟨i, h1⟩).name) := by
  have hf := optMapM_eq_some_forall₂ _ hw
  refine ⟨hf.length_eq.symm, ?_⟩
  intro i h1 h2
  have hrel := (List.forall₂_iff_get.mp hf).2 i h1 h2
  have hmem : entries.get ⟨i, h1⟩ ∈ entries := List.get_mem entries i h1
  by_cases hmod :
      isModifiedFile { parseArchive entries with files := fm } (entries.get ⟨i, h1⟩).name = true
  · rw [if_pos hmod] at hrel
    rcases hfm : fm (entries.get ⟨i, h1⟩).name with _ | bs
    · rw [show ({ parseArchive entries with files := fm } : DocFiles).files = fm from rfl,
        hfm] at hrel
      simp at hrel
    · rw [show ({ parseArchive entries with files := fm } : DocFiles).files = fm from rfl,
        hfm] at hrel
      have hrel' : ZipEntry.mk (entries.get ⟨i, h1⟩).name bs = out.get ⟨i, h2⟩ :=
        Option.some_inj.mp hrel
      refine ⟨by rw [← hrel'], ?_, ?_⟩
      · intro hmut
        exfalso
        rcases (isModifiedFile_iff entries fm _).mp hmod with hd | ⟨_, hp⟩
        · rw [(mutableName_eq_true_iff _).mpr (Or.inl hd)] at hmut
          cases hmut
        · rw [(mutableName_eq_true_iff _).mpr (Or.inr hp)] at hmut
          cases hmut
      · intro _
        have hco : (out.get ⟨i, h2⟩).content = bs := by rw [← hrel']
        rw [hco]
  · rw [if_neg hmod] at hrel
    have ho : out.get ⟨i, h2⟩ = entries.get ⟨i, h1⟩ := by
      have := Option.some_inj.mp hrel
      rw [this]
    refine ⟨by rw [ho], fun _ => by rw [ho], ?_⟩
    intro hmut
    exfalso
    apply hmod
    apply (isModifiedFile_iff entries fm _).mpr
    rcases (mutableName_eq_true_iff _).mp hmut with hd | hp
    · exact Or.inl hd
    · exact Or.inr ⟨List.mem_map.mpr ⟨entries.get ⟨i, h1⟩, hmem, rfl⟩, hp⟩

/-- A five-entry archive: content types, main body, a header, a relationships
part (not mutable), a media image. -/
def c7Entries : List ZipEntry :=
  [⟨"[Content_Types].xml", [1]⟩, ⟨"word/document.xml", [2]⟩, ⟨"word/header1.xml", [3]⟩,
   ⟨"word/_rels/document.xml.rels", [4]⟩, ⟨"word/media/image1.png", [5]⟩]

/-- The in-memory file map after replacing the main body's bytes with `[9, 9]`. -/
def c7wFiles : FileMap := fmInsert (parseArchive c7Entries).files DocumentXml [9, 9]

/-- The expected output archive: main body rewritten, everything else verbatim. -/
def c7wOut : List ZipEntry :=
  [⟨"[Content_Types].xml", [1]⟩, ⟨"word/document.xml", [9, 9]⟩, ⟨"word/header1.xml", [3]⟩,
   ⟨"word/_rels/document.xml.rels", [4]⟩, ⟨"word/media/image1.png", [5]⟩]

/-- Witness for C7: on the concrete archive with a replaced main body, the
non-mutable relationships entry is byte-identical to the input and the mutable
main body entry carries the in-memory bytes. -/
theorem c7_untouched_entries_identical_witness :
    c7wOut.length = c7Entries.length ∧
    (c7wOut.get ⟨3, by decide⟩).name = (c7Entries.get ⟨3, by decide⟩).name ∧
    (c7wOut.get ⟨3, by decide⟩).content = (c7Entries.get ⟨3, by decide⟩).content ∧
    some (c7wOut.get ⟨1, by decide⟩).content = c7wFiles (c7Entries.get ⟨1, by decide⟩).name := by
  have h := c7_untouched_entries_identical c7Entries c7wFiles c7wOut (by decide)
  have h3 := h.2 3 (by decide) (by decide)
  have h1 := h.2 1 (by decide) (by decide)
  exact ⟨h.1, h3.1, h3.2.1 (by decide), h1.2.2 (by decide)⟩

/-! ### Claim C9 — the `SetFile` contract -/

/-- **C9.** `SetFile` errors exactly when the part name is not in the
registered file set; on the error path the file map is returned untouched; on
success `GetFile` of that name yields precisely the supplied bytes and every
other name's bytes are unchanged. -/
theorem c9_setfile_contract (files : FileMap) (n : String) (bs : Bytes) :
    ((SetFile files n bs).2 = true ↔ files n = none) ∧
    ((SetFile files n bs).2 = true → (SetFile files n bs).1 = files) ∧
    ((SetFile files n bs).2 = false →
      GetFile (SetFile files n bs).1 n = some bs ∧
      ∀ k, k ≠ n → GetFile (SetFile files n bs).1 k = GetFile files k) := by
  rcases h : files n with _ | bs0
  · simp [SetFile, GetFile, h]
  · refine ⟨by simp [SetFile, h], by simp [SetFile, h], fun _ => ⟨by simp [SetFile, GetFile, h], ?_⟩⟩
    intro k hk
    simp [SetFile, GetFile, h, hk]

/-- A concrete store registering only the main body. -/
def c9Files : FileMap := fun n => if n = DocumentXml then some [7] else none

/-- Witness for C9: on the registered name the new bytes are stored and other
lookups are untouched; on an unregistered name the call errors and the map is
returned unchanged. -/
theorem c9_setfile_contract_witness :
    GetFile (SetFile c9Files DocumentXml [1, 2]).1 DocumentXml = some [1, 2] ∧
    GetFile (SetFile c9Files DocumentXml [1, 2]).1 "word/header1.xml" =
      GetFile c9Files "word/header1.xml" ∧
    (SetFile c9Files "word/styles.xml" [3]).2 = true ∧
    (SetFile c9Files "word/styles.xml" [3]).1 = c9Files := by
  have hok := (c9_setfile_contract c9Files DocumentXml [1, 2]).2.2 (by decide)
  have herr : (SetFile c9Files "word/styles.xml" [3]).2 = true :=
    (c9_setfile_contract c9Files "word/styles.xml" [3]).1.mpr (by decide)
  exact ⟨hok.1, hok.2 _ (by decide), herr,
    (c9_setfile_contract c9Files "word/styles.xml" [3]).2.1 herr⟩

/-! ### Claim C10 — the literal text between the open markers plus dot and the
close markers is the single top-level map lookup key -/

/-- **C10.** For a map context, the pre-execution check extracts, from a
placeholder of the form (open marker)`.`k(close marker) with k nonempty and
free of close-brace bytes, exactly the literal text `k` as the single lookup
key; whenever `k` is not a top-level key of the map — including nested paths
like `user.name` and pipelines like `name | upper`, whatever data the context
actually holds — the placeholder is classified as missing and skipped, its
bytes left untouched, regardless of how the template engine would have
rendered it. -/
theorem findFieldRefsAux_nil (fuel : Nat) : findFieldRefsAux fuel [] = [] := by
  cases fuel <;> rfl

theorem c10_map_lookup_uses_literal_field_text (keys : CtxKeys) (k : Bytes)
    (E : Evaluator) (files : FileMap) (ph : TemplatePlaceholder)
    (hc : ph.TemplateContent = [0x7B, 0x7B, 0x2E] ++ k ++ [0x7D, 0x7D])
    (hne : k ≠ [])
    (hnb : ∀ b ∈ k, b ≠ 0x7D)
    (hmiss : keys.contains k = false) :
    findFieldRefs ph.TemplateContent = [k] ∧
    hasMissingFields (some keys) ph.TemplateContent = true ∧
    processTemplatePlaceholder E (some keys) files ph = .ok files := by
  have pair : ∀ (l : Bytes), (∀ b ∈ l, b ≠ 0x7D) →
      (l ++ [0x7D, 0x7D]).takeWhile (fun z => decide (z ≠ 0x7D)) = l ∧
      (l ++ [0x7D, 0x7D]).dropWhile (fun z => decide (z ≠ 0x7D)) = [0x7D, 0x7D] := by
    intro l
    induction l with
    | nil =>
      intro _
      constructor
      · exact List.takeWhile_cons_of_neg (by simp)
      · exact List.dropWhile_cons_of_neg (by simp)
    | cons x xs ih =>
      intro h
      have hx : decide (x ≠ 0x7D) = true := by
        simpa using h x (by simp)
      have hxs := ih fun z hz => h z (by simp [hz])
      constructor
      · rw [List.cons_append,
          @List.takeWhile_cons_of_pos _ (fun z => decide (z ≠ 0x7D)) x (xs ++ [0x7D, 0x7D]) hx,
          hxs.1]
      · rw [List.cons_append,
          @List.dropWhile_cons_of_pos _ (fun z => decide (z ≠ 0x7D)) x (xs ++ [0x7D, 0x7D]) hx,
          hxs.2]
  obtain ⟨htw, hdw⟩ := pair k hnb
  obtain ⟨b, k', rfl⟩ : ∃ b k', k = b :: k' := by
    rcases k with _ | ⟨b, k'⟩
    · exact absurd rfl hne
    · exact ⟨b, k', rfl⟩
  have hmatch : fieldMatchAt (0x7B :: 0x7B :: 0x2E :: ((b :: k') ++ [0x7D, 0x7D])) =
      some (b :: k', []) := by
    have h1 : fieldMatchAt (0x7B :: 0x7B :: 0x2E :: ((b :: k') ++ [0x7D, 0x7D])) =
        fieldCapture ((b :: k') ++ [0x7D, 0x7D]) := by
      simp [fieldMatchAt]
    rw [h1]
    unfold fieldCapture
    rw [htw, hdw]
    simp
  have hshape : ([0x7B, 0x7B, 0x2E] ++ (b :: k') ++ [0x7D, 0x7D] : Bytes) =
      0x7B :: 0x7B :: 0x2E :: ((b :: k') ++ [0x7D, 0x7D]) := by simp
  have hrefs : findFieldRefs ph.TemplateContent = [b :: k'] := by
    rw [hc, hshape]
    have hl : (0x7B :: 0x7B :: 0x2E :: ((b :: k') ++ [0x7D, 0x7D]) : Bytes).length =
        (k'.length + 5) + 1 := by simp
    unfold findFieldRefs
    rw [hl]
    show findFieldRefsAux (k'.length + 5 + 1)
      (0x7B :: (0x7B :: 0x2E :: ((b :: k') ++ [0x7D, 0x7D]))) = [b :: k']
    unfold findFieldRefsAux
    rw [hmatch]
    show (b :: k') :: findFieldRefsAux (k'.length + 5) [] = [b :: k']
    rw [findFieldRefsAux_nil]
  have hmem : (b :: k') ∉ keys := by
    intro hm
    have hcontains : keys.contains (b :: k') = true := by
      show keys.elem (b :: k') = true
      rw [List.elem_eq_mem]
      simpa using hm
    rw [hmiss] at hcontains
    cases hcontains
  have hmf : hasMissingFields (some keys) ph.TemplateContent = true := by
    simp only [hasMissingFields, hrefs, List.any_cons, List.any_nil, fieldExists]
    simp [hmem]
  refine ⟨hrefs, hmf, ?_⟩
  unfold processTemplatePlaceholder
  simp [hmf]

/-! ### Claim C6 — the splice equation and the length bookkeeping -/

/-- One placeholder as seen by the splice step: its recorded absolute
positions, and the rendered result when it is substituted (`none` when the
resolution policy skips it). -/
structure SpliceOp where
  startPos : Nat
  endPos : Nat
  rendered : Option Bytes
deriving Repr, DecidableEq

/-- The intended effect of one step: splice the rendering over
`[startPos, endPos)`, or leave the bytes alone for a skipped placeholder. -/
def spliceOne (bs : Bytes) (op : SpliceOp) : Bytes :=
  match op.rendered with
  | none => bs
  | some r => bs.take op.startPos ++ r ++ bs.drop op.endPos

/-- Processing a list of placeholders in the given order with the code's
splice (`spliceBytes`, the `make`+`copy` sequence of `replacePlaceholder`);
skipped placeholders leave the buffer untouched. -/
def processOps : List SpliceOp → Bytes → Option Bytes
  | [], bs => some bs
  | op :: rest, bs =>
    match op.rendered with
    | none => processOps rest bs
    | some r =>
      match spliceBytes bs op.startPos op.endPos r with
      | none => none
      | some bs2 => processOps rest bs2

/-- Total length of the rendered results over substituted placeholders
(skipped ones contribute zero). -/
def addedLen (ops : List SpliceOp) : Nat :=
  (ops.map fun op => match op.rendered with | some r => r.length | none => 0).sum

/-- Total length of the replaced original tokens (`EndPos − StartPos`) over
substituted placeholders (skipped ones contribute zero). -/
def removedLen (ops : List SpliceOp) : Nat :=
  (ops.map fun op => match op.rendered with | some _ => op.endPos - op.startPos | none => 0).sum

/-- The `make`+three-`copy` sequence equals prefix ++ result ++ suffix under
valid positions. -/
theorem spliceBytes_eq (bs : Bytes) (s e : Nat) (r : Bytes) (hs : s ≤ e) (he : e ≤ bs.length) :
    spliceBytes bs s e r = some (bs.take s ++ r ++ bs.drop e) := by
  have hsl : s ≤ bs.length := le_trans hs he
  have hlt : (bs.take s).length = s := by rw [List.length_take]; omega
  have hld : (bs.drop e).length = bs.length - e := List.length_drop e bs
  unfold spliceBytes
  rw [if_pos ⟨hsl, he⟩]
  have hL1 : bs.length + s - e + r.length - s = bs.length - e + r.length := by omega
  have hLs : s ≤ bs.length + s - e + r.length := by omega
  have h1 : goCopyAt (List.replicate (bs.length + s - e + r.length) 0) 0 (bs.take s) =
      bs.take s ++ List.replicate (bs.length - e + r.length) 0 := by
    unfold goCopyAt
    rw [List.length_replicate, List.take_zero, Nat.sub_zero, Nat.zero_add,
      List.take_of_length_le (by omega), hlt, Nat.min_eq_left hLs, List.drop_replicate, hL1]
    simp
  have h2 : goCopyAt (bs.take s ++ List.replicate (bs.length - e + r.length) 0) s r =
      bs.take s ++ r ++ List.replicate (bs.length - e) 0 := by
    unfold goCopyAt
    have hlen2 : (bs.take s ++ List.replicate (bs.length - e + r.length) 0).length =
        bs.length + s - e + r.length := by
      rw [List.length_append, hlt, List.length_replicate]; omega
    rw [hlen2, List.take_left' hlt, hL1,
      List.take_of_length_le (by omega : r.length ≤ bs.length - e + r.length),
      Nat.min_eq_left (by omega : r.length ≤ bs.length - e + r.length)]
    have hdrop2 : List.drop (s + r.length) (bs.take s ++ List.replicate (bs.length - e + r.length) 0) =
        List.replicate (bs.length - e) 0 := by
      rw [← List.drop_drop, List.drop_left' hlt, List.drop_replicate]
      congr 1
      omega
    rw [hdrop2, List.append_assoc]
  have h3 : goCopyAt (bs.take s ++ r ++ List.replicate (bs.length - e) 0) (s + r.length)
      (bs.drop e) = bs.take s ++ r ++ bs.drop e := by
    unfold goCopyAt
    have hlen3 : (bs.take s ++ r ++ List.replicate (bs.length - e) 0).length =
        bs.length + s - e + r.length := by
      rw [List.length_append, List.length_append, hlt, List.length_replicate]; omega
    have hpre : (bs.take s ++ r).length = s + r.length := by
      rw [List.length_append, hlt]
    rw [hlen3, List.take_left' hpre,
      List.take_of_length_le (by omega : (bs.drop e).length ≤ bs.length + s - e + r.length - (s + r.length)),
      Nat.min_eq_left (by omega : (bs.drop e).length ≤ bs.length + s - e + r.length - (s + r.length)),
      hld]
    have hdrop3 : List.drop (s + r.length + (bs.length - e))
        (bs.take s ++ r ++ List.replicate (bs.length - e) 0) = [] := by
      rw [← List.drop_drop, List.drop_left' hpre, List.drop_replicate]
      simp
    rw [hdrop3, List.append_nil]
  show some (goCopyAt (goCopyAt (goCopyAt (List.replicate (bs.length + s - e + r.length) 0) 0
    (bs.take s)) s r) (s + r.length) (bs.drop e)) = some (bs.take s ++ r ++ bs.drop e)
  rw [h1, h2, h3]

/-- Down a descending chain, every later placeholder ends at or before the
head's start. -/
theorem chain_desc_all (op : SpliceOp) :
    ∀ (rest : List SpliceOp),
      List.Chain' (fun a b => b.endPos ≤ a.startPos) (op :: rest) →
      (∀ p ∈ rest, p.startPos ≤ p.endPos) →
      ∀ p ∈ rest, p.endPos ≤ op.startPos := by
  intro rest
  induction rest generalizing op with
  | nil => simp
  | cons q rest' ih =>
    intro hchain hse p hp
    have hq : q.endPos ≤ op.startPos := (List.chain'_cons.mp hchain).1
    rcases List.mem_cons.mp hp with rfl | hp'
    · exact hq
    · have hq' := ih q hchain.tail (fun z hz => hse z (by simp [hz])) p hp'
      exact le_trans hq' (le_trans (hse q (by simp)) hq)

/-- **C6.** When a part's placeholders are processed in descending position
order (each later-processed placeholder ends at or before the previously
processed one starts), with valid recorded positions, the code's splice
produces, at every substituted placeholder, exactly `bytes before startPos ++
rendered ++ bytes from endPos on` (`processOps` computes the pure fold of
`spliceOne`), and the final buffer's length satisfies `final + Σ(endPos −
startPos) = original + Σ len(rendered)`, both sums over substituted
placeholders only — skipped placeholders contribute zero. -/
theorem c6_splice_and_length_bookkeeping :
    ∀ (ops : List SpliceOp) (bs : Bytes),
      (∀ op ∈ ops, op.startPos ≤ op.endPos) →
      (∀ op ∈ ops, op.endPos ≤ bs.length) →
      List.Chain' (fun a b => b.endPos ≤ a.startPos) ops →
      processOps ops bs = some (ops.foldl spliceOne bs) ∧
      (ops.foldl spliceOne bs).length + removedLen ops = bs.length + addedLen ops := by
  intro ops
  induction ops with
  | nil => intro bs _ _ _; simp [processOps, removedLen, addedLen]
  | cons op rest ih =>
    intro bs hse hend hchain
    have hse1 : op.startPos ≤ op.endPos := hse op (by simp)
    have hend1 : op.endPos ≤ bs.length := hend op (by simp)
    have hrest_se : ∀ p ∈ rest, p.startPos ≤ p.endPos := fun p hp => hse p (by simp [hp])
    have hrest_bound : ∀ p ∈ rest, p.endPos ≤ op.startPos :=
      chain_desc_all op rest hchain hrest_se
    rcases hr : op.rendered with _ | r
    · -- skipped: the buffer is untouched
      have hstep := ih bs hrest_se (fun p hp => hend p (by simp [hp])) hchain.tail
      have hfold : (op :: rest).foldl spliceOne bs = rest.foldl spliceOne bs := by
        simp [List.foldl_cons, spliceOne, hr]
      constructor
      · rw [hfold]
        simp only [processOps, hr]
        exact hstep.1
      · rw [hfold]
        have : removedLen (op :: rest) = removedLen rest := by simp [removedLen, hr]
        have ha : addedLen (op :: rest) = addedLen rest := by simp [addedLen, hr]
        rw [this, ha]
        exact hstep.2
    · -- substituted: splice over [startPos, endPos)
      have hsplice := spliceBytes_eq bs op.startPos op.endPos r hse1 hend1
      have hlen2 : (bs.take op.startPos ++ r ++ bs.drop op.endPos).length =
          op.startPos + r.length + (bs.length - op.endPos) := by
        rw [List.length_append, List.length_append, List.length_take, List.length_drop]
        omega
      have hendrest : ∀ p ∈ rest, p.endPos ≤ (bs.take op.startPos ++ r ++ bs.drop op.endPos).length := by
        intro p hp
        have := hrest_bound p hp
        omega
      have hstep := ih (bs.take op.startPos ++ r ++ bs.drop op.endPos) hrest_se hendrest hchain.tail
      have hfold : (op :: rest).foldl spliceOne bs =
          rest.foldl spliceOne (bs.take op.startPos ++ r ++ bs.drop op.endPos) := by
        simp [List.foldl_cons, spliceOne, hr]
      constructor
      · rw [hfold]
        simp only [processOps, hr, hsplice]
        exact hstep.1
      · rw [hfold]
        have hrm : removedLen (op :: rest) = op.endPos - op.startPos + removedLen rest := by
          simp [removedLen, hr]
        have ha : addedLen (op :: rest) = r.length + addedLen rest := by
          simp [addedLen, hr]
        rw [hrm, ha]
        have := hstep.2
        omega

/-- Ten original bytes with two placeholders, processed in descending order:
the one at `[6, 8)` substituted by three bytes, the one at `[1, 3)` skipped. -/
def c6Ops : List SpliceOp := [⟨6, 8, some [99, 99, 99]⟩, ⟨1, 3, none⟩]

/-- Witness for C6 at a concrete buffer and op list: processing succeeds, the
result is the expected spliced buffer, and its length satisfies the
bookkeeping equation (11 + 2 = 10 + 3). -/
theorem c6_splice_and_length_bookkeeping_witness :
    processOps c6Ops [0, 1, 2, 3, 4, 5, 6, 7, 8, 9] =
      some (c6Ops.foldl spliceOne [0, 1, 2, 3, 4, 5, 6, 7, 8, 9]) ∧
    (c6Ops.foldl spliceOne [0, 1, 2, 3, 4, 5, 6, 7, 8, 9]).length + removedLen c6Ops =
      ([0, 1, 2, 3, 4, 5, 6, 7, 8, 9] : Bytes).length + addedLen c6Ops :=
  c6_splice_and_length_bookkeeping c6Ops [0, 1, 2, 3, 4, 5, 6, 7, 8, 9]
    (by decide) (by decide)
    (List.chain'_cons.mpr ⟨by decide, List.chain'_singleton _⟩)

/-! ### Claim C5 — per-part descending processing order -/

/-- Pairwise order on the first components survives zipping. -/
theorem pairwise_zip_left {α β : Type} {R : α → α → Prop} :
    ∀ {l₁ : List α} {l₂ : List β}, l₁.Pairwise R →
      (l₁.zip l₂).Pairwise fun p q => R p.1 q.1 := by
  intro l₁
  induction l₁ with
  | nil => intro l₂ _; simp
  | cons a l ih =>
    intro l₂ hp
    rcases l₂ with _ | ⟨b, l₂'⟩
    · simp
    · rw [List.zip_cons_cons]
      refine List.pairwise_cons.mpr ⟨?_, ih (List.Pairwise.of_cons hp)⟩
      intro q hq
      exact (List.pairwise_cons.mp hp).1 q.1 (List.of_mem_zip hq).1

/-- Whatever `parseRunText` returns is strictly increasing in `StartPos`, and
every returned placeholder carries the given file name with its absolute start
inside the run's text span. -/
theorem parseRunText_inv {fileName : String} {run : Run} {textBytes : Bytes}
    {phs : List TemplatePlaceholder}
    (h : parseRunText fileName run textBytes = some phs) :
    List.Pairwise (fun a b => a.Placeholder.StartPos < b.Placeholder.StartPos) phs ∧
    ∀ ph ∈ phs, ph.FileName = fileName ∧
      run.Text.OpenTag.End ≤ ph.Placeholder.StartPos ∧
      ph.Placeholder.StartPos < run.Text.OpenTag.End + textBytes.length := by
  simp only [parseRunText] at h
  have hf := optMapM_eq_some_forall₂ _ h
  constructor
  · have hsorted : (findTemplateStarts (utf8Decode textBytes)).Pairwise (· < ·) :=
      (List.pairwise_lt_range _).filter _
    have hzip := @pairwise_zip_left _ _ _ _ (findTemplateEnds (utf8Decode textBytes)) hsorted
    refine forall₂_pairwise_transfer ?_ hf hzip
    intro p ph q ph' hb hb' hlt
    have hb1 : buildTemplatePlaceholder fileName run textBytes p.1 p.2 = some ph := hb
    have hb2 : buildTemplatePlaceholder fileName run textBytes q.1 q.2 = some ph' := hb'
    have e1 : ph.Placeholder.StartPos = run.Text.OpenTag.End + p.1 := by
      rw [(buildTemplatePlaceholder_inv hb1).1]; rfl
    have e2 : ph'.Placeholder.StartPos = run.Text.OpenTag.End + q.1 := by
      rw [(buildTemplatePlaceholder_inv hb2).1]; rfl
    omega
  · intro ph hph
    rcases forall₂_mem_right hf ph hph with ⟨p, hp, hb⟩
    have hb1 : buildTemplatePlaceholder fileName run textBytes p.1 p.2 = some ph := hb
    have e1 : ph.Placeholder.StartPos = run.Text.OpenTag.End + p.1 := by
      rw [(buildTemplatePlaceholder_inv hb1).1]; rfl
    have hs := (List.of_mem_zip hp).1
    have hrange := (mem_findTemplateStarts hs).1
    have hlen := utf8Decode_length_le textBytes
    exact ⟨(buildTemplatePlaceholder_inv hb1).2, by omega, by omega⟩

/-- Invariant of the `ParseTemplatePlaceholders` fold: with well-formed,
position-ordered runs, the accumulated placeholder list stays strictly
increasing in `StartPos`. -/
theorem fold_parse_sorted :
    ∀ (rs : List Run) (docBytes : Bytes) (fn : String) (acc : List TemplatePlaceholder)
      (bnd : Nat) (phs : List TemplatePlaceholder),
      rs.foldlM
        (fun acc run =>
          match run.GetText docBytes with
          | none => none
          | some text =>
            match parseRunText fn run text with
            | none => none
            | some p => some (acc ++ p))
        acc = some phs →
      (∀ r ∈ rs, r.Text.OpenTag.End ≤ r.Text.CloseTag.Start ∧
        r.Text.CloseTag.Start ≤ docBytes.length) →
      List.Pairwise (fun a b => a.Text.CloseTag.Start ≤ b.Text.OpenTag.End) rs →
      List.Pairwise (fun a b => a.Placeholder.StartPos < b.Placeholder.StartPos) acc →
      (∀ a ∈ acc, a.Placeholder.StartPos < bnd) →
      (∀ r ∈ rs, bnd ≤ r.Text.OpenTag.End) →
      List.Pairwise (fun a b => a.Placeholder.StartPos < b.Placeholder.StartPos) phs := by
  intro rs
  induction rs with
  | nil =>
    intro docBytes fn acc bnd phs h _ _ hacc _ _
    simp [List.foldlM_nil] at h
    rwa [← h]
  | cons r rs' ih =>
    intro docBytes fn acc bnd phs h hwf hord hacc hbound hfront
    rw [List.foldlM_cons] at h
    rcases hg : r.GetText docBytes with _ | tb
    · simp only [hg] at h; simp at h
    · simp only [hg] at h
      rcases hpr : parseRunText fn r tb with _ | prun
      · simp only [hpr] at h; simp at h
      · simp only [hpr] at h
        simp only [Option.bind_eq_bind, Option.some_bind] at h
        -- bounds on the run's text
        have hwfr := hwf r (by simp)
        have htb : tb.length = r.Text.CloseTag.Start - r.Text.OpenTag.End := by
          unfold Run.GetText at hg
          rw [if_pos ⟨hwfr.1, hwfr.2⟩] at hg
          have := congrArg (fun o => (o.getD []).length) hg
          simp only [Option.getD_some] at this
          rw [← this, List.length_take, List.length_drop]
          omega
        have hprun := parseRunText_inv hpr
        have hfrontr := hfront r (by simp)
        -- the new accumulator is sorted
        have hacc' : List.Pairwise
            (fun a b => a.Placeholder.StartPos < b.Placeholder.StartPos) (acc ++ prun) := by
          refine List.pairwise_append.mpr ⟨hacc, hprun.1, ?_⟩
          intro a ha b hb
          have h1 := hbound a ha
          have h2 := (hprun.2 b hb).2.1
          omega
        -- every accumulated placeholder sits before the run's text ends
        have hbound' : ∀ a ∈ acc ++ prun,
            a.Placeholder.StartPos < r.Text.CloseTag.Start := by
          intro a ha
          rcases List.mem_append.mp ha with ha | ha
          · have := hbound a ha
            omega
          · have := (hprun.2 a ha).2.2
            omega
        -- later runs open after this run's text closes
        have hfront' : ∀ r' ∈ rs', r.Text.CloseTag.Start ≤ r'.Text.OpenTag.End :=
          fun r' hr' => (List.pairwise_cons.mp hord).1 r' hr'
        exact ih docBytes fn (acc ++ prun) r.Text.CloseTag.Start phs h
          (fun z hz => hwf z (by simp [hz]))
          (List.Pairwise.of_cons hord) hacc' hbound' hfront'

/-- **C5.** For a part whose text-bearing runs are well-formed (text spans
inside the part, open before close) and position-ordered (each run's text
closes before the next run's text opens), the extracted placeholder list is
strictly increasing in `StartPos`; hence the processing order of
`ExecuteTemplate` — the reverse of the extracted list — handles that part's
placeholders in strictly descending `StartPos` order: no placeholder of the
part is spliced before a later-positioned placeholder of the same part. -/
theorem c5_processing_order_descending (runs : DocumentRuns) (docBytes : Bytes)
    (fn : String) (phs : List TemplatePlaceholder)
    (hp : ParseTemplatePlaceholders runs docBytes fn = some phs)
    (hwf : ∀ r ∈ runs.WithText, r.Text.OpenTag.End ≤ r.Text.CloseTag.Start ∧
      r.Text.CloseTag.Start ≤ docBytes.length)
    (hord : List.Pairwise (fun a b => a.Text.CloseTag.Start ≤ b.Text.OpenTag.End)
      runs.WithText) :
    List.Pairwise (fun a b => b.Placeholder.StartPos < a.Placeholder.StartPos)
      phs.reverse := by
  refine List.pairwise_reverse.mpr ?_
  exact fold_parse_sorted runs.WithText docBytes fn [] 0 phs hp hwf hord
    (by simp) (by simp) (fun r _ => Nat.zero_le _)

/-- A part with two runs, each holding one placeholder (C5 witness):
`<w:t>` (0..5), text at 5..11, `</w:t><w:t>` up to 22, text at 22..28. -/
def c5Bytes : Bytes := asciiBytes "<w:t>\x7b\x7b.a\x7d\x7d</w:t><w:t>\x7b\x7b.b\x7d\x7d</w:t>"

/-- First run of the witness part. -/
def c5Run1 : Run := { ID := 1, Text := { OpenTag := ⟨0, 5⟩, CloseTag := ⟨11, 17⟩ }, HasText := true }

/-- Second run of the witness part. -/
def c5Run2 : Run := { ID := 2, Text := { OpenTag := ⟨17, 22⟩, CloseTag := ⟨28, 34⟩ }, HasText := true }

/-- The placeholders extracted from the witness part (start positions 5 and 22). -/
def c5Phs : List TemplatePlaceholder :=
  [{ Placeholder := { Fragments := [{ Position := { Start := 0, End := 6 }, Run := c5Run1 }] }
     FileName := DocumentXml
     TemplateContent := asciiBytes "\x7b\x7b.a\x7d\x7d"
     Key := asciiBytes ".a" },
   { Placeholder := { Fragments := [{ Position := { Start := 0, End := 6 }, Run := c5Run2 }] }
     FileName := DocumentXml
     TemplateContent := asciiBytes "\x7b\x7b.b\x7d\x7d"
     Key := asciiBytes ".b" }]

/-- Witness for C5: on the concrete two-run part the processing order (the
reverse of the extracted list) is strictly descending in `StartPos`. -/
theorem c5_processing_order_descending_witness :
    List.Pairwise (fun a b => b.Placeholder.StartPos < a.Placeholder.StartPos)
      c5Phs.reverse :=
  c5_processing_order_descending [c5Run1, c5Run2] c5Bytes DocumentXml c5Phs
    (by decide) (by decide) (by decide)

/-! ### Claim C2 amended — all referenced keys missing means no part changes -/

/-- A content whose extracted field references are nonempty and all absent from
the map is flagged by the pre-execution check. -/
theorem hasMissingFields_of_refs (keys : CtxKeys) (content : Bytes)
    (hne : findFieldRefs content ≠ [])
    (hmiss : ∀ f ∈ findFieldRefs content, keys.contains f = false) :
    hasMissingFields (some keys) content = true := by
  unfold hasMissingFields
  rcases hr : findFieldRefs content with _ | ⟨f, fs⟩
  · exact absurd hr hne
  · show (f :: fs).any (fun z => !fieldExists keys z) = true
    apply List.any_eq_true.mpr
    refine ⟨f, by simp, ?_⟩
    have hcf := hmiss f (by rw [hr]; simp)
    have hfm : f ∉ keys := by
      intro hm
      have : keys.contains f = true := by
        show keys.elem f = true
        rw [List.elem_eq_mem]
        simpa using hm
      rw [hcf] at this
      cases this
    simp [fieldExists, hfm]

/-- The processing loop leaves the document untouched when every placeholder in
it is flagged by the pre-execution check. -/
theorem processAll_skips (E : Evaluator) (keys : CtxKeys) :
    ∀ (l : List TemplatePlaceholder) (files : FileMap),
      (∀ ph ∈ l, hasMissingFields (some keys) ph.TemplateContent = true) →
      processAll E (some keys) l files = .ok files := by
  intro l
  induction l with
  | nil => intro files _; rfl
  | cons ph rest ih =>
    intro files h
    have hph : processTemplatePlaceholder E (some keys) files ph = .ok files := by
      unfold processTemplatePlaceholder
      simp [h ph (by simp)]
    simp only [processAll, hph]
    exact ih files fun z hz => h z (by simp [hz])

/-- **C2 amended.** For every evaluator, map context and document: when every
extracted placeholder references at least one field (its content contains a
field-reference pattern) and the context map contains none of the referenced
keys, `ExecuteTemplate` succeeds and leaves every part's bytes byte-for-byte
identical (the document's file map is returned unchanged). -/
theorem c2_all_referenced_keys_missing_leaves_parts_unchanged
    (E : Evaluator) (keys : CtxKeys) (d : TDoc) (phs : List TemplatePlaceholder)
    (hex : extractTemplatePlaceholders d = some phs)
    (href : ∀ ph ∈ phs, findFieldRefs ph.TemplateContent ≠ [])
    (hmiss : ∀ ph ∈ phs, ∀ f ∈ findFieldRefs ph.TemplateContent, keys.contains f = false) :
    ExecuteTemplate E (some keys) d = .ok d.fileMap := by
  unfold ExecuteTemplate
  simp only [hex]
  exact processAll_skips E keys phs.reverse d.fileMap fun ph hph =>
    hasMissingFields_of_refs keys ph.TemplateContent
      (href ph (List.mem_reverse.mp hph))
      (hmiss ph (List.mem_reverse.mp hph))

/-- A part holding the single field placeholder `.name` (C2 witness). -/
def c2wBytes : Bytes := asciiBytes "<w:t>\x7b\x7b.name\x7d\x7d</w:t>"

/-- The run owning that text. -/
def c2wRun : Run := { ID := 1, Text := { OpenTag := ⟨0, 5⟩, CloseTag := ⟨14, 20⟩ }, HasText := true }

/-- The witness document. -/
def c2wDoc : TDoc := ⟨[(DocumentXml, c2wBytes, [c2wRun])]⟩

/-- The placeholder the locator extracts from the witness document. -/
def c2wPhs : List TemplatePlaceholder :=
  [{ Placeholder := { Fragments := [{ Position := { Start := 0, End := 9 }, Run := c2wRun }] }
     FileName := DocumentXml
     TemplateContent := asciiBytes "\x7b\x7b.name\x7d\x7d"
     Key := asciiBytes ".name" }]

/-- An arbitrary concrete evaluator (never consulted: the placeholder is
skipped before execution). -/
def c2wEval : Evaluator := fun _ => .fatalErr

/-- Witness for the amended C2: with the empty map (containing none of the
referenced keys) the execution returns the document's file map unchanged. -/
theorem c2_all_referenced_keys_missing_witness :
    ExecuteTemplate c2wEval (some []) c2wDoc = .ok c2wDoc.fileMap :=
  c2_all_referenced_keys_missing_leaves_parts_unchanged c2wEval [] c2wDoc c2wPhs
    (by decide) (by decide) (by decide)

/-- A concrete placeholder whose inner text is the nested path `user.name`. -/
def c10Ph : TemplatePlaceholder :=
  { Placeholder := { Fragments := [] }
    FileName := DocumentXml
    TemplateContent := [0x7B, 0x7B, 0x2E] ++ asciiBytes "user.name" ++ [0x7D, 0x7D]
    Key := asciiBytes ".user.name" }

/-- Witness for C10: the context holds the key `user` (so the data needed for
the nested path is present), yet the literal lookup key is `user.name`, which
is not a top-level key: the placeholder is classified missing and skipped. -/
theorem c10_map_lookup_witness :
    findFieldRefs c10Ph.TemplateContent = [asciiBytes "user.name"] ∧
    hasMissingFields (some [asciiBytes "user"]) c10Ph.TemplateContent = true ∧
    processTemplatePlaceholder c3Eval (some [asciiBytes "user"]) emptyFiles c10Ph =
      .ok emptyFiles :=
  c10_map_lookup_uses_literal_field_text [asciiBytes "user"] (asciiBytes "user.name")
    c3Eval emptyFiles c10Ph (by decide) (by decide) (by decide) (by decide)

end Docx
